import Mathlib

/-!
Verification of the working-day / scheduling core of `generate_gantt.py`.

Modelling conventions (shallow embedding):
* A calendar date is an integer day index `d : ℤ`; adding `timedelta(days=1)`
  is `d + 1`.  The weekday of `d` is `d % 7` with day 0 a Monday, matching
  Python's `datetime.weekday()` (0 = Monday … 6 = Sunday).  `parse_date` is
  injective and order/arithmetic preserving, so dates enter the model already
  parsed as integers.
* Python floats are modelled as exact rationals `ℚ`.
* A raised `ValueError` is `none`; a normal return is `some _`.  The
  unbounded `while` loop of `add_working_days` is run on a fuel of
  `7 * n` days, which is proved sufficient whenever the workday set contains
  a real weekday; fuel exhaustion (`none`) corresponds to divergence of the
  Python loop.
-/

namespace GenGantt

/-- Weekday of an integer day index: 0 = Monday … 6 = Sunday. -/
def weekday (d : ℤ) : ℕ := (d % 7).toNat

/-- Colour palette (one per group, cycles if more groups than colours). -/
def PALETTE : List String :=
  ["#4e79a7", "#f28e2b", "#e15759", "#76b7b2",
   "#59a14f", "#edc948", "#b07aa1", "#ff9da7"]

/-- Default workday configuration string. -/
def WORKDAYS_DEFAULT : String := "M,T,W,Th,F"

/-- Hours per working day. -/
def HOURS_PER_DAY : ℚ := 8

/-- Abbreviation → Python weekday (0=Mon … 6=Sun), keys as char lists. -/
def DAY_MAP : List (List Char × ℕ) :=
  [(['m'], 0), (['t'], 1), (['w'], 2), (['t', 'h'], 3),
   (['f'], 4), (['s', 'a'], 5), (['s', 'u'], 6)]

/-- Lookup of a (lowercased) token in `DAY_MAP`. -/
def lookupDay (key : List Char) : Option ℕ := List.lookup key DAY_MAP

/-- Python `s.replace(" ", "")` on the character list. -/
def removeSpaces (cs : List Char) : List Char := cs.filter (fun c => c != ' ')

/-- Python `str.split(",")`: split at every comma, keeping empty parts.
The result is always a non-empty list of parts. -/
def splitComma : List Char → List (List Char)
  | [] => [[]]
  | c :: cs =>
    if c = ',' then [] :: splitComma cs
    else
      match splitComma cs with
      | p :: ps => (c :: p) :: ps
      | [] => [[c]]

/-- The token-consuming loop of `parse_workdays`: each part is lowercased and
looked up in `DAY_MAP`; an unknown token raises (returns `none`), otherwise
the resulting weekday ints are collected into a set. -/
def parse_workdays_tokens : List (List Char) → Option (Finset ℕ)
  | [] => some ∅
  | p :: ps =>
    match lookupDay (p.map Char.toLower) with
    | none => none
    | some d => (parse_workdays_tokens ps).map (fun W => insert d W)

/-- Embeds `parse_workdays`: remove spaces, split on commas, look each
token up case-insensitively. -/
def parse_workdays (s : String) : Option (Finset ℕ) :=
  parse_workdays_tokens (splitComma (removeSpaces s.data))

/-- The `while added < n` loop of `add_working_days`, with explicit fuel:
each iteration steps one calendar day and counts it when its weekday is in
the workday set.  `none` means the fuel ran out (the Python loop diverges). -/
def addLoop (W : Finset ℕ) (n : ℕ) : ℕ → ℤ → ℕ → Option ℤ
  | 0, current, added => if n ≤ added then some current else none
  | fuel + 1, current, added =>
    if n ≤ added then some current
    else
      addLoop W n fuel (current + 1)
        (if weekday (current + 1) ∈ W then added + 1 else added)

/-- Embeds `add_working_days`: ceil the day count, return `start` unchanged
when it is non-positive, else walk forward one day at a time counting
workdays.  Fuel `7 * n` is sufficient for any real workday set. -/
def add_working_days (start : ℤ) (n : ℚ) (W : Finset ℕ) : Option ℤ :=
  if ⌈n⌉ ≤ 0 then some start
  else addLoop W (⌈n⌉).toNat (7 * (⌈n⌉).toNat) start 0

/-- Numeric value of a decimal digit. -/
def digitVal (c : Char) : ℕ := c.toNat - 48

/-- Value of a digit string read left to right. -/
def natOfDigits (ds : List Char) : ℕ :=
  ds.foldl (fun acc c => 10 * acc + digitVal c) 0

/-- Value of the fractional digits after the decimal point. -/
def fracOfDigits (ds : List Char) : ℚ :=
  (natOfDigits ds : ℚ) / ((10 : ℚ) ^ ds.length)

/-- Python's `\s` / `str.strip` whitespace on ASCII. -/
def pyIsSpace (c : Char) : Bool :=
  c == ' ' || c == '\t' || c == '\n' || c == '\r' || c == '\x0b' || c == '\x0c'

/-- Python `str.strip()`. -/
def pyStrip (cs : List Char) : List Char :=
  ((cs.dropWhile pyIsSpace).reverse.dropWhile pyIsSpace).reverse

/-- The optional `(?:\.\d+)?` fragment of the duration regex: if the next
character is a dot it must be followed by at least one digit; returns the
fraction digits (empty when the group is absent) and the rest. -/
def parseFracDigits (cs : List Char) : Option (List Char × List Char) :=
  match cs with
  | '.' :: rest =>
    match rest.span Char.isDigit with
    | ([], _) => none
    | (ds, rest2) => some (ds, rest2)
  | _ => some ([], cs)

/-- Full match of the duration regex `(\d+(?:\.\d+)?)\s*([dwhm])` against a
character list: leading digits, optional fraction, optional whitespace, a
single unit character, end of input.  Returns the integer digits, the
fraction digits and the unit character. -/
def matchDuration (cs : List Char) : Option (List Char × List Char × Char) :=
  match cs.span Char.isDigit with
  | ([], _) => none
  | (ds, rest) =>
    match parseFracDigits rest with
    | none => none
    | some (fs, rest2) =>
      match rest2.dropWhile pyIsSpace with
      | [u] =>
        if u ∈ ['d', 'w', 'h', 'm'] then some (ds, fs, u)
        else none
      | _ => none

/-- Numeric value of the matched number, exactly as Python `float` reads the
decimal literal `<ds>.<fs>` (modelled as an exact rational). -/
def durValue (ds fs : List Char) : ℚ :=
  (natOfDigits ds : ℚ) + fracOfDigits fs

/-- Embeds `duration_to_working_days`: strip and lowercase the string, match
the duration regex, convert by unit. -/
def duration_to_working_days (s : String) (days_per_week days_per_month : ℚ) :
    Option ℚ :=
  match matchDuration ((pyStrip s.data).map Char.toLower) with
  | none => none
  | some (ds, fs, unit) =>
    if unit = 'd' then some (durValue ds fs)
    else if unit = 'w' then some (durValue ds fs * days_per_week)
    else if unit = 'h' then some (durValue ds fs / HOURS_PER_DAY)
    else if unit = 'm' then some (durValue ds fs * days_per_month)
    else none

/-- A task as it appears in the YAML input (dates already parsed to day
indices; absent keys are `none`). -/
structure TaskIn where
  id : String
  name : String
  start : ℤ
  assignee : Option String
  due : Option ℤ
  duration : Option String
deriving DecidableEq

/-- A group as it appears in the YAML input. -/
structure GroupIn where
  name : String
  tasks : List TaskIn
deriving DecidableEq

/-- The project block of the YAML input. -/
structure ProjectIn where
  name : String
  subtitle : Option String
  start : Option ℤ
  workdays : Option String
deriving DecidableEq

/-- A display row: group header band or task bar. -/
inductive Row where
  | group (label : String) (color : String)
  | task (id : String) (label : String) (assignee : String)
      (start : ℤ) (due : ℤ) (color : String) (groupName : String)
deriving DecidableEq

/-- Colour assigned to group index `gi` (cycling through the palette). -/
def paletteColor (gi : ℕ) : String := PALETTE.getD (gi % PALETTE.length) ""

/-- Due-date resolution for one task, exactly as in `build_rows`: use the
explicit due date when the `due` key is present, else parse the duration and
advance the start date, else raise. -/
def resolve_due (W : Finset ℕ) (dpw dpm : ℚ) (t : TaskIn) : Option ℤ :=
  match t.due with
  | some d => some d
  | none =>
    match t.duration with
    | some s =>
      match duration_to_working_days s dpw dpm with
      | none => none
      | some wd => add_working_days t.start wd W
    | none => none

/-- Task rows of one group, in declaration order. -/
def buildTaskRows (W : Finset ℕ) (dpw dpm : ℚ) (color gname : String) :
    List TaskIn → Option (List Row)
  | [] => some []
  | t :: ts =>
    match resolve_due W dpw dpm t with
    | none => none
    | some due =>
      match buildTaskRows W dpw dpm color gname ts with
      | none => none
      | some rest =>
        some (Row.task t.id t.name (t.assignee.getD "") t.start due
          color gname :: rest)

/-- The group loop of `build_rows`, carrying the group index for the colour. -/
def build_rows_go (W : Finset ℕ) (dpw dpm : ℚ) : ℕ → List GroupIn → Option (List Row)
  | _, [] => some []
  | gi, g :: gs =>
    match buildTaskRows W dpw dpm (paletteColor gi) g.name g.tasks with
    | none => none
    | some trs =>
      match build_rows_go W dpw dpm (gi + 1) gs with
      | none => none
      | some rest => some (Row.group g.name (paletteColor gi) :: (trs ++ rest))

/-- Embeds `build_rows`: flatten groups and tasks into display rows. -/
def build_rows (groups : List GroupIn) (W : Finset ℕ) (dpw dpm : ℚ) :
    Option (List Row) :=
  build_rows_go W dpw dpm 0 groups

/-- Days-per-month derived from days-per-week, as computed in
`generate_gantt`: `days_per_week / 7.0 * 30.44`. -/
def days_per_month_of (days_per_week : ℚ) : ℚ :=
  days_per_week / 7 * (3044 / 100)

/-- The data pipeline of `generate_gantt` up to the row list: read the
workday configuration (defaulting to M-F), derive the week/month ratios,
build the rows.  Any validation failure aborts the whole run (`none`). -/
def gantt_rows (proj : ProjectIn) (groups : List GroupIn) : Option (List Row) :=
  match parse_workdays (proj.workdays.getD WORKDAYS_DEFAULT) with
  | none => none
  | some W =>
    build_rows groups W ((W.card : ℚ)) (days_per_month_of (W.card : ℚ))

/-- Past-due test in the renderer: `past = due < today`. -/
def past_due (due today : ℤ) : Bool := decide (due < today)

/-- Bar opacity in the renderer: `0.40 if past else 0.85`. -/
def task_alpha (due today : ℤ) : ℚ :=
  if past_due due today then 40 / 100 else 85 / 100

/-- Whether the hatch overlay is drawn: exactly when past due. -/
def task_hatched (due today : ℤ) : Bool := past_due due today

/-- Start dates of the task rows (group rows contribute nothing). -/
def taskStarts (rows : List Row) : List ℤ :=
  rows.filterMap (fun r =>
    match r with
    | Row.task _ _ _ s _ _ _ => some s
    | Row.group _ _ => none)

/-- Due dates of the task rows. -/
def taskDues (rows : List Row) : List ℤ :=
  rows.filterMap (fun r =>
    match r with
    | Row.task _ _ _ _ d _ _ => some d
    | Row.group _ _ => none)

/-- Python `min` over a list (raises, i.e. `none`, on an empty list). -/
def listMin : List ℤ → Option ℤ
  | [] => none
  | x :: xs =>
    match listMin xs with
    | none => some x
    | some m => some (min x m)

/-- Python `max` over a list. -/
def listMax : List ℤ → Option ℤ
  | [] => none
  | x :: xs =>
    match listMax xs with
    | none => some x
    | some m => some (max x m)

/-- Left axis bound: the explicit project start, else the earliest task
start minus five days. -/
def chart_x_min (proj_start : Option ℤ) (rows : List Row) : Option ℤ :=
  match proj_start with
  | some d => some d
  | none => (listMin (taskStarts rows)).map (fun m => m - 5)

/-- Right axis bound: the latest due date plus the 28-day label margin. -/
def chart_x_max (rows : List Row) : Option ℤ :=
  (listMax (taskDues rows)).map (fun M => M + 28)

/-- Number of configured workdays in the interval `(start, r]`. -/
def workdayCount (W : Finset ℕ) (start r : ℤ) : ℕ :=
  ((Finset.Ioc start r).filter (fun d => weekday d ∈ W)).card

/-- Distance (in calendar days, between 1 and 7) from day `c` to the next
day with weekday `w`; the ranking function of the advance loop. -/
def distTo (w : ℕ) (c : ℤ) : ℕ := (((w : ℤ) - c - 1) % 7).toNat + 1

/-- Skeleton of a display row: is it a group header, and its label (for
groups) or id (for tasks).  Forgets the computed dates and colours. -/
def rowSkel : Row → Bool × String
  | Row.group label _ => (true, label)
  | Row.task id _ _ _ _ _ _ => (false, id)

/-- Skeleton a single input group should produce: one header then one task
row per task, in declaration order. -/
def groupSkel (g : GroupIn) : List (Bool × String) :=
  (true, g.name) :: g.tasks.map (fun t => (false, t.id))

/-- Whether a row is a task row. -/
def isTaskRow : Row → Bool
  | Row.group _ _ => false
  | Row.task _ _ _ _ _ _ _ => true

end GenGantt

namespace GenGantt

theorem addLoop_done (W : Finset ℕ) (n fuel : ℕ) (current : ℤ) (added : ℕ)
    (h : n ≤ added) : addLoop W n fuel current added = some current := by
  cases fuel <;> simp [addLoop, h]

theorem distTo_pos (w : ℕ) (c : ℤ) : 1 ≤ distTo w c := Nat.le_add_left 1 _

theorem distTo_le (w : ℕ) (c : ℤ) : distTo w c ≤ 7 := by
  unfold distTo; omega

theorem distTo_eq_one_iff (w : ℕ) (c : ℤ) (hw : w < 7) :
    distTo w c = 1 ↔ weekday (c + 1) = w := by
  unfold distTo weekday; omega

theorem distTo_step (w : ℕ) (c : ℤ) (h : 2 ≤ distTo w c) :
    distTo w (c + 1) = distTo w c - 1 := by
  unfold distTo at *; omega

theorem addLoop_total (W : Finset ℕ) (n w : ℕ) (hw : w ∈ W) (hw7 : w < 7) :
    ∀ fuel (current : ℤ) (added : ℕ), added < n →
      7 * (n - added - 1) + distTo w current ≤ fuel →
      ∃ r, addLoop W n fuel current added = some r := by
  intro fuel
  induction fuel with
  | zero =>
    intro current added h1 h2
    exfalso
    have := distTo_pos w current
    omega
  | succ f ih =>
    intro current added h1 h2
    rw [addLoop, if_neg (by omega)]
    by_cases hmem : weekday (current + 1) ∈ W
    · rw [if_pos hmem]
      by_cases hn : n ≤ added + 1
      · exact ⟨current + 1, addLoop_done W n f (current + 1) (added + 1) hn⟩
      · apply ih (current + 1) (added + 1) (by omega)
        have ha := distTo_le w (current + 1)
        have hb := distTo_pos w current
        omega
    · rw [if_neg hmem]
      apply ih (current + 1) added h1
      have hne : weekday (current + 1) ≠ w := fun e => hmem (e ▸ hw)
      have h2' : 2 ≤ distTo w current := by
        have hiff := distTo_eq_one_iff w current hw7
        have := distTo_pos w current
        omega
      have := distTo_step w current h2'
      omega

theorem addLoop_result (W : Finset ℕ) (n : ℕ) :
    ∀ fuel (current : ℤ) (added : ℕ) (r : ℤ), added < n →
      addLoop W n fuel current added = some r →
      current < r ∧ weekday r ∈ W := by
  intro fuel
  induction fuel with
  | zero =>
    intro current added r h1 h2
    rw [addLoop, if_neg (by omega)] at h2
    exact absurd h2 (by simp)
  | succ f ih =>
    intro current added r h1 h2
    rw [addLoop, if_neg (by omega)] at h2
    by_cases hmem : weekday (current + 1) ∈ W
    · rw [if_pos hmem] at h2
      by_cases hn : n ≤ added + 1
      · rw [addLoop_done W n f (current + 1) (added + 1) hn] at h2
        have : current + 1 = r := by injection h2
        subst this
        exact ⟨by omega, hmem⟩
      · have := ih (current + 1) (added + 1) r (by omega) h2
        exact ⟨by omega, this.2⟩
    · rw [if_neg hmem] at h2
      have := ih (current + 1) added r h1 h2
      exact ⟨by omega, this.2⟩

theorem workdayCount_self (W : Finset ℕ) (start : ℤ) : workdayCount W start start = 0 := by
  simp [workdayCount]

theorem workdayCount_succ (W : Finset ℕ) (start current : ℤ) (h : start ≤ current) :
    workdayCount W start (current + 1) =
      workdayCount W start current + (if weekday (current + 1) ∈ W then 1 else 0) := by
  unfold workdayCount
  have hins : Finset.Ioc start (current + 1) = insert (current + 1) (Finset.Ioc start current) := by
    ext x
    simp only [Finset.mem_Ioc, Finset.mem_insert]
    omega
  rw [hins, Finset.filter_insert]
  by_cases hm : weekday (current + 1) ∈ W
  · rw [if_pos (by simpa using hm), if_pos hm, Finset.card_insert_of_not_mem]
    intro hx
    have := Finset.mem_filter.mp hx
    have := Finset.mem_Ioc.mp this.1
    omega
  · rw [if_neg (by simpa using hm), if_neg hm]
    omega

theorem addLoop_count (W : Finset ℕ) (n : ℕ) (start : ℤ) :
    ∀ fuel (current : ℤ) (added : ℕ) (r : ℤ), start ≤ current → added ≤ n →
      workdayCount W start current = added →
      addLoop W n fuel current added = some r →
      workdayCount W start r = n ∧ start ≤ r := by
  intro fuel
  induction fuel with
  | zero =>
    intro current added r h0 h1 hc h2
    rw [addLoop] at h2
    by_cases hn : n ≤ added
    · rw [if_pos hn] at h2
      have : current = r := by injection h2
      subst this
      exact ⟨by omega, h0⟩
    · rw [if_neg hn] at h2
      exact absurd h2 (by simp)
  | succ f ih =>
    intro current added r h0 h1 hc h2
    rw [addLoop] at h2
    by_cases hn : n ≤ added
    · rw [if_pos hn] at h2
      have : current = r := by injection h2
      subst this
      exact ⟨by omega, h0⟩
    · rw [if_neg hn] at h2
      have hstep := workdayCount_succ W start current h0
      by_cases hmem : weekday (current + 1) ∈ W
      · rw [if_pos hmem] at h2
        exact ih (current + 1) (added + 1) r (by omega) (by omega)
          (by rw [hstep, if_pos hmem]; omega) h2
      · rw [if_neg hmem] at h2
        exact ih (current + 1) added r (by omega) h1
          (by rw [hstep, if_neg hmem]; omega) h2

theorem add_working_days_nonpos (start : ℤ) (n : ℚ) (W : Finset ℕ) (h : ⌈n⌉ ≤ 0) :
    add_working_days start n W = some start := by
  rw [add_working_days, if_pos h]

theorem add_working_days_pos (start : ℤ) (n : ℚ) (W : Finset ℕ) (w : ℕ)
    (hw : w ∈ W) (hw7 : w < 7) (hn : 1 ≤ ⌈n⌉) :
    ∃ r, add_working_days start n W = some r ∧
      workdayCount W start r = (⌈n⌉).toNat ∧ weekday r ∈ W ∧ start < r := by
  rw [add_working_days, if_neg (by omega)]
  have hnc : 1 ≤ (⌈n⌉).toNat := by omega
  obtain ⟨r, hr⟩ := addLoop_total W (⌈n⌉).toNat w hw hw7 (7 * (⌈n⌉).toNat) start 0
    (by omega) (by have := distTo_le w start; omega)
  refine ⟨r, hr, ?_, ?_, ?_⟩
  · exact (addLoop_count W (⌈n⌉).toNat start _ start 0 r le_rfl (by omega)
      (workdayCount_self W start) hr).1
  · exact (addLoop_result W (⌈n⌉).toNat _ start 0 r (by omega) hr).2
  · exact (addLoop_result W (⌈n⌉).toNat _ start 0 r (by omega) hr).1

end GenGantt

namespace GenGantt

theorem lookupDay_lt (key : List Char) (d : ℕ) (h : lookupDay key = some d) : d < 7 := by
  unfold lookupDay DAY_MAP at h
  simp only [List.lookup] at h
  repeat' split at h
  all_goals simp_all
  all_goals omega

theorem splitComma_ne_nil (cs : List Char) : splitComma cs ≠ [] := by
  induction cs with
  | nil => simp [splitComma]
  | cons c cs ih =>
    rw [splitComma]
    split
    · simp
    · cases h : splitComma cs with
      | nil => exact absurd h ih
      | cons p ps => simp

theorem parse_workdays_tokens_mem :
    ∀ (parts : List (List Char)) (W : Finset ℕ),
      parse_workdays_tokens parts = some W →
      ∀ d, d ∈ W ↔ ∃ p ∈ parts, lookupDay (p.map Char.toLower) = some d := by
  intro parts
  induction parts with
  | nil =>
    intro W h d
    simp only [parse_workdays_tokens, Option.some_inj] at h
    subst h
    simp
  | cons p ps ih =>
    intro W h d
    rw [parse_workdays_tokens] at h
    cases hl : lookupDay (p.map Char.toLower) with
    | none => rw [hl] at h; exact absurd h (by simp)
    | some d0 =>
      rw [hl] at h
      cases hr : parse_workdays_tokens ps with
      | none => rw [hr] at h; exact absurd h (by simp)
      | some W0 =>
        rw [hr] at h
        simp only [Option.map_some', Option.some_inj] at h
        subst h
        constructor
        · intro hdW
          rcases Finset.mem_insert.mp hdW with h1 | h2
          · exact ⟨p, by simp, by rw [hl, h1]⟩
          · obtain ⟨q, hq, hqq⟩ := (ih W0 hr d).mp h2
            exact ⟨q, by simp [hq], hqq⟩
        · rintro ⟨q, hq, hqq⟩
          rcases List.mem_cons.mp hq with rfl | hq2
          · rw [hl] at hqq
            have : d0 = d := by injection hqq
            subst this
            exact Finset.mem_insert_self d0 W0
          · exact Finset.mem_insert_of_mem ((ih W0 hr d).mpr ⟨q, hq2, hqq⟩)

theorem parse_workdays_tokens_none (parts : List (List Char))
    (h : ∃ p ∈ parts, lookupDay (p.map Char.toLower) = none) :
    parse_workdays_tokens parts = none := by
  induction parts with
  | nil => simp at h
  | cons p ps ih =>
    obtain ⟨q, hq, hqq⟩ := h
    rw [parse_workdays_tokens]
    rcases List.mem_cons.mp hq with rfl | hq2
    · rw [hqq]
    · rw [ih ⟨q, hq2, hqq⟩]
      cases hl : lookupDay (p.map Char.toLower) <;> simp

theorem parse_workdays_tokens_isSome (parts : List (List Char))
    (h : ∀ p ∈ parts, (lookupDay (p.map Char.toLower)).isSome) :
    (parse_workdays_tokens parts).isSome := by
  induction parts with
  | nil => simp [parse_workdays_tokens]
  | cons p ps ih =>
    rw [parse_workdays_tokens]
    cases hl : lookupDay (p.map Char.toLower) with
    | none =>
      have := h p (by simp)
      rw [hl] at this
      exact absurd this (by simp)
    | some d0 =>
      have := ih (fun q hq => h q (by simp [hq]))
      cases hr : parse_workdays_tokens ps with
      | none => rw [hr] at this; exact absurd this (by simp)
      | some W0 => simp

theorem parse_workdays_sound (s : String) (W : Finset ℕ)
    (h : parse_workdays s = some W) : W.Nonempty ∧ ∃ w ∈ W, w < 7 := by
  unfold parse_workdays at h
  cases hsp : splitComma (removeSpaces s.data) with
  | nil => exact absurd hsp (splitComma_ne_nil _)
  | cons p ps =>
    rw [hsp, parse_workdays_tokens] at h
    cases hl : lookupDay (p.map Char.toLower) with
    | none => rw [hl] at h; exact absurd h (by simp)
    | some d =>
      rw [hl] at h
      cases hr : parse_workdays_tokens ps with
      | none => rw [hr] at h; exact absurd h (by simp)
      | some W0 =>
        rw [hr] at h
        simp only [Option.map_some', Option.some_inj] at h
        subst h
        exact ⟨⟨d, Finset.mem_insert_self d W0⟩,
          d, Finset.mem_insert_self d W0, lookupDay_lt _ d hl⟩

end GenGantt

namespace GenGantt

theorem resolve_due_of_due (W : Finset ℕ) (dpw dpm : ℚ) (t : TaskIn) (d : ℤ)
    (h : t.due = some d) : resolve_due W dpw dpm t = some d := by
  simp [resolve_due, h]

theorem resolve_due_none_of_missing (W : Finset ℕ) (dpw dpm : ℚ) (t : TaskIn)
    (h1 : t.due = none) (h2 : t.duration = none) :
    resolve_due W dpw dpm t = none := by
  simp [resolve_due, h1, h2]

theorem resolve_due_none_of_bad_duration (W : Finset ℕ) (dpw dpm : ℚ) (t : TaskIn)
    (s : String) (h1 : t.due = none) (h2 : t.duration = some s)
    (h3 : duration_to_working_days s dpw dpm = none) :
    resolve_due W dpw dpm t = none := by
  simp [resolve_due, h1, h2, h3]

theorem add_working_days_isSome (start : ℤ) (n : ℚ) (W : Finset ℕ) (w : ℕ)
    (hw : w ∈ W) (hw7 : w < 7) : (add_working_days start n W).isSome := by
  by_cases h : ⌈n⌉ ≤ 0
  · rw [add_working_days_nonpos start n W h]; rfl
  · obtain ⟨r, hr, _⟩ := add_working_days_pos start n W w hw hw7 (by omega)
    rw [hr]; rfl

theorem resolve_due_isSome (W : Finset ℕ) (dpw dpm : ℚ) (t : TaskIn) (w : ℕ)
    (hw : w ∈ W) (hw7 : w < 7)
    (h : t.due ≠ none ∨ ∃ s, t.duration = some s ∧
      (duration_to_working_days s dpw dpm).isSome) :
    (resolve_due W dpw dpm t).isSome := by
  cases hd : t.due with
  | some d => simp [resolve_due, hd]
  | none =>
    rcases h with h1 | ⟨s, hs, hp⟩
    · exact absurd hd h1
    · cases hdp : duration_to_working_days s dpw dpm with
      | none => rw [hdp] at hp; exact absurd hp (by simp)
      | some wd =>
        simp only [resolve_due, hd, hs, hdp]
        exact add_working_days_isSome t.start wd W w hw hw7

theorem buildTaskRows_skel (W : Finset ℕ) (dpw dpm : ℚ) (color gname : String) :
    ∀ (ts : List TaskIn) (rows : List Row),
      buildTaskRows W dpw dpm color gname ts = some rows →
      rows.map rowSkel = ts.map (fun t => (false, t.id)) := by
  intro ts
  induction ts with
  | nil =>
    intro rows h
    simp only [buildTaskRows, Option.some_inj] at h
    subst h
    simp
  | cons t ts ih =>
    intro rows h
    rw [buildTaskRows] at h
    cases hr : resolve_due W dpw dpm t with
    | none => rw [hr] at h; exact absurd h (by simp)
    | some due =>
      rw [hr] at h
      cases hb : buildTaskRows W dpw dpm color gname ts with
      | none => rw [hb] at h; exact absurd h (by simp)
      | some rest =>
        rw [hb] at h
        simp only [Option.some_inj] at h
        subst h
        simp [rowSkel, ih rest hb]

theorem build_rows_go_skel (W : Finset ℕ) (dpw dpm : ℚ) :
    ∀ (gs : List GroupIn) (gi : ℕ) (rows : List Row),
      build_rows_go W dpw dpm gi gs = some rows →
      rows.map rowSkel = (gs.map groupSkel).flatten := by
  intro gs
  induction gs with
  | nil =>
    intro gi rows h
    simp only [build_rows_go, Option.some_inj] at h
    subst h
    simp
  | cons g gs ih =>
    intro gi rows h
    rw [build_rows_go] at h
    cases hb : buildTaskRows W dpw dpm (paletteColor gi) g.name g.tasks with
    | none => rw [hb] at h; exact absurd h (by simp)
    | some trs =>
      rw [hb] at h
      cases hg : build_rows_go W dpw dpm (gi + 1) gs with
      | none => rw [hg] at h; exact absurd h (by simp)
      | some rest =>
        rw [hg] at h
        simp only [Option.some_inj] at h
        subst h
        simp [rowSkel, groupSkel, buildTaskRows_skel W dpw dpm _ _ _ trs hb, ih (gi + 1) rest hg]

theorem buildTaskRows_none_of_mem (W : Finset ℕ) (dpw dpm : ℚ) (color gname : String) :
    ∀ (ts : List TaskIn) (t : TaskIn), t ∈ ts → resolve_due W dpw dpm t = none →
      buildTaskRows W dpw dpm color gname ts = none := by
  intro ts
  induction ts with
  | nil => intro t ht; simp at ht
  | cons t0 ts ih =>
    intro t ht hres
    rw [buildTaskRows]
    rcases List.mem_cons.mp ht with rfl | ht2
    · rw [hres]
    · rw [ih t ht2 hres]
      cases hr : resolve_due W dpw dpm t0 <;> simp

theorem build_rows_go_none_of_mem (W : Finset ℕ) (dpw dpm : ℚ) :
    ∀ (gs : List GroupIn) (gi : ℕ) (g : GroupIn) (t : TaskIn),
      g ∈ gs → t ∈ g.tasks → resolve_due W dpw dpm t = none →
      build_rows_go W dpw dpm gi gs = none := by
  intro gs
  induction gs with
  | nil => intro gi g t hg; simp at hg
  | cons g0 gs ih =>
    intro gi g t hg ht hres
    rw [build_rows_go]
    rcases List.mem_cons.mp hg with rfl | hg2
    · rw [buildTaskRows_none_of_mem W dpw dpm (paletteColor gi) g.name g.tasks t ht hres]
    · rw [ih (gi + 1) g t hg2 ht hres]
      cases hb : buildTaskRows W dpw dpm (paletteColor gi) g0.name g0.tasks <;> simp

theorem buildTaskRows_isSome (W : Finset ℕ) (dpw dpm : ℚ) (color gname : String) :
    ∀ (ts : List TaskIn), (∀ t ∈ ts, (resolve_due W dpw dpm t).isSome) →
      (buildTaskRows W dpw dpm color gname ts).isSome := by
  intro ts
  induction ts with
  | nil => intro _; simp [buildTaskRows]
  | cons t ts ih =>
    intro h
    rw [buildTaskRows]
    cases hr : resolve_due W dpw dpm t with
    | none =>
      have := h t (by simp)
      rw [hr] at this
      exact absurd this (by simp)
    | some due =>
      have := ih (fun q hq => h q (by simp [hq]))
      cases hb : buildTaskRows W dpw dpm color gname ts with
      | none => rw [hb] at this; exact absurd this (by simp)
      | some rest => simp

theorem build_rows_go_isSome (W : Finset ℕ) (dpw dpm : ℚ) :
    ∀ (gs : List GroupIn) (gi : ℕ),
      (∀ g ∈ gs, ∀ t ∈ g.tasks, (resolve_due W dpw dpm t).isSome) →
      (build_rows_go W dpw dpm gi gs).isSome := by
  intro gs
  induction gs with
  | nil => intro gi _; simp [build_rows_go]
  | cons g gs ih =>
    intro gi h
    rw [build_rows_go]
    cases hb : buildTaskRows W dpw dpm (paletteColor gi) g.name g.tasks with
    | none =>
      have := buildTaskRows_isSome W dpw dpm (paletteColor gi) g.name g.tasks
        (fun t ht => h g (by simp) t ht)
      rw [hb] at this
      exact absurd this (by simp)
    | some trs =>
      have := ih (gi + 1) (fun g2 hg2 t ht => h g2 (by simp [hg2]) t ht)
      cases hg : build_rows_go W dpw dpm (gi + 1) gs with
      | none => rw [hg] at this; exact absurd this (by simp)
      | some rest => simp

theorem listMin_spec : ∀ (l : List ℤ) (x : ℤ), listMin l = some x →
    x ∈ l ∧ ∀ y ∈ l, x ≤ y := by
  intro l
  induction l with
  | nil => intro x h; simp [listMin] at h
  | cons a l ih =>
    intro x h
    rw [listMin] at h
    cases hm : listMin l with
    | none =>
      rw [hm] at h
      simp only [Option.some_inj] at h
      subst h
      cases l with
      | nil => simp
      | cons b l2 =>
        rw [listMin] at hm
        exact absurd hm (by cases listMin l2 <;> simp)
    | some m =>
      rw [hm] at h
      simp only [Option.some_inj] at h
      subst h
      obtain ⟨hmem, hle⟩ := ih m hm
      constructor
      · rcases le_total a m with hc | hc
        · simp [min_eq_left hc]
        · simp [min_eq_right hc, hmem]
      · intro y hy
        rcases List.mem_cons.mp hy with rfl | hy2
        · exact min_le_left _ _
        · exact le_trans (min_le_right _ _) (hle y hy2)

theorem listMax_spec : ∀ (l : List ℤ) (x : ℤ), listMax l = some x →
    x ∈ l ∧ ∀ y ∈ l, y ≤ x := by
  intro l
  induction l with
  | nil => intro x h; simp [listMax] at h
  | cons a l ih =>
    intro x h
    rw [listMax] at h
    cases hm : listMax l with
    | none =>
      rw [hm] at h
      simp only [Option.some_inj] at h
      subst h
      cases l with
      | nil => simp
      | cons b l2 =>
        rw [listMax] at hm
        exact absurd hm (by cases listMax l2 <;> simp)
    | some m =>
      rw [hm] at h
      simp only [Option.some_inj] at h
      subst h
      obtain ⟨hmem, hle⟩ := ih m hm
      constructor
      · rcases le_total a m with hc | hc
        · simp [max_eq_right hc, hmem]
        · simp [max_eq_left hc]
      · intro y hy
        rcases List.mem_cons.mp hy with rfl | hy2
        · exact le_max_left _ _
        · exact le_trans (hle y hy2) (le_max_right _ _)

theorem listMin_isSome (l : List ℤ) (h : l ≠ []) : (listMin l).isSome := by
  cases l with
  | nil => exact absurd rfl h
  | cons a l2 => rw [listMin]; cases listMin l2 <;> simp

theorem listMax_isSome (l : List ℤ) (h : l ≠ []) : (listMax l).isSome := by
  cases l with
  | nil => exact absurd rfl h
  | cons a l2 => rw [listMax]; cases listMax l2 <;> simp

theorem taskStarts_ne_nil (rows : List Row) (r : Row) (hr : r ∈ rows)
    (ht : isTaskRow r = true) : taskStarts rows ≠ [] := by
  cases r with
  | group label color => simp [isTaskRow] at ht
  | task id label asg s d color g =>
    have : s ∈ taskStarts rows := List.mem_filterMap.mpr ⟨_, hr, rfl⟩
    exact List.ne_nil_of_mem this

theorem taskDues_ne_nil (rows : List Row) (r : Row) (hr : r ∈ rows)
    (ht : isTaskRow r = true) : taskDues rows ≠ [] := by
  cases r with
  | group label color => simp [isTaskRow] at ht
  | task id label asg s d color g =>
    have : d ∈ taskDues rows := List.mem_filterMap.mpr ⟨_, hr, rfl⟩
    exact List.ne_nil_of_mem this

end GenGantt

namespace GenGantt

/-- C1: `add_working_days` rounds `n` up to the next integer; if the rounded
count is zero or negative it returns `start` unchanged; otherwise it walks
forward one calendar day at a time, counting only days whose weekday lies in
the configured set, and returns the date on which the n-th such workday is
reached (that date is a workday, lies strictly after `start`, and exactly
`⌈n⌉` workdays lie in `(start, result]`).  With an M-F calendar, advancing
the Monday day 0 by 1 working day yields the Tuesday day 1, and advancing
the Friday day 4 by 1 yields the following Monday, day 7. -/
theorem advance_counts_workdays :
    (∀ (start : ℤ) (n : ℚ) (W : Finset ℕ), ⌈n⌉ ≤ 0 →
      add_working_days start n W = some start) ∧
    (∀ (start : ℤ) (n : ℚ) (W : Finset ℕ) (w : ℕ), w ∈ W → w < 7 → 1 ≤ ⌈n⌉ →
      ∃ r, add_working_days start n W = some r ∧
        workdayCount W start r = (⌈n⌉).toNat ∧ weekday r ∈ W ∧ start < r) ∧
    (weekday 0 = 0 ∧ add_working_days 0 1 ({0, 1, 2, 3, 4} : Finset ℕ) = some 1 ∧
      weekday 1 = 1) ∧
    (weekday 4 = 4 ∧ add_working_days 4 1 ({0, 1, 2, 3, 4} : Finset ℕ) = some 7 ∧
      weekday 7 = 0) := by
  refine ⟨add_working_days_nonpos, ?_, ⟨by decide, by decide, by decide⟩,
    ⟨by decide, by decide, by decide⟩⟩
  intro start n W w hw hw7 hn
  exact add_working_days_pos start n W w hw hw7 hn

/-- Witness for C1: the two general parts applied at concrete inputs. -/
theorem advance_counts_workdays_witness :
    add_working_days 5 0 ({0} : Finset ℕ) = some 5 ∧
    ∃ r, add_working_days 0 1 ({0, 1, 2, 3, 4} : Finset ℕ) = some r ∧
      workdayCount ({0, 1, 2, 3, 4} : Finset ℕ) 0 r = (⌈(1 : ℚ)⌉).toNat ∧
      weekday r ∈ ({0, 1, 2, 3, 4} : Finset ℕ) ∧ (0 : ℤ) < r := by
  constructor
  · exact advance_counts_workdays.1 5 0 ({0} : Finset ℕ) (by simp)
  · exact advance_counts_workdays.2.1 0 1 ({0, 1, 2, 3, 4} : Finset ℕ) 0
      (by decide) (by decide) (by simp)

/-- C2: the duration parser maps "3d" to 3.0 working days, "2w" with a
5-day week to 10.0, "40h" to 5.0 (8 hours per day), "1.5m" to 1.5 times the
days-per-month value, and the days-per-month value used by the pipeline is
derived from days-per-week as `days_per_week / 7 * 30.44`, not a fixed
constant. -/
theorem duration_parser_values :
    (∀ dpw dpm : ℚ, duration_to_working_days "3d" dpw dpm = some 3) ∧
    (∀ dpm : ℚ, duration_to_working_days "2w" 5 dpm = some 10) ∧
    (∀ dpw dpm : ℚ, duration_to_working_days "40h" dpw dpm = some 5) ∧
    (∀ dpw : ℚ, duration_to_working_days "1.5m" dpw (days_per_month_of dpw) =
      some ((3 / 2) * days_per_month_of dpw)) ∧
    (∀ dpw : ℚ, days_per_month_of dpw = dpw / 7 * (3044 / 100)) := by
  refine ⟨?_, ?_, ?_, ?_, fun dpw => rfl⟩
  · intro dpw dpm
    have h : matchDuration ((pyStrip "3d".data).map Char.toLower) =
        some (['3'], [], 'd') := by decide
    unfold duration_to_working_days
    rw [h]
    simp +decide [durValue, natOfDigits, digitVal, fracOfDigits, List.foldl]
  · intro dpm
    have h : matchDuration ((pyStrip "2w".data).map Char.toLower) =
        some (['2'], [], 'w') := by decide
    unfold duration_to_working_days
    rw [h]
    simp +decide [durValue, natOfDigits, digitVal, fracOfDigits, List.foldl]
    norm_num
  · intro dpw dpm
    have h : matchDuration ((pyStrip "40h".data).map Char.toLower) =
        some (['4', '0'], [], 'h') := by decide
    unfold duration_to_working_days
    rw [h]
    simp +decide [durValue, natOfDigits, digitVal, fracOfDigits, List.foldl,
      HOURS_PER_DAY]
    norm_num
  · intro dpw
    have h : matchDuration ((pyStrip "1.5m".data).map Char.toLower) =
        some (['1'], ['5'], 'm') := by decide
    unfold duration_to_working_days
    rw [h]
    simp +decide [durValue, natOfDigits, digitVal, fracOfDigits, List.foldl,
      days_per_month_of]
    ring_nf
    exact Or.inl trivial

/-- C3: a task carrying an explicit due date resolves to that due date, and
its duration string is never consulted: replacing the duration by anything
else gives the same result. -/
theorem explicit_due_wins :
    ∀ (W : Finset ℕ) (dpw dpm : ℚ) (t : TaskIn) (d : ℤ), t.due = some d →
      resolve_due W dpw dpm t = some d ∧
      ∀ dur : Option String,
        resolve_due W dpw dpm
          (TaskIn.mk t.id t.name t.start t.assignee t.due dur) = some d := by
  intro W dpw dpm t d h
  refine ⟨resolve_due_of_due W dpw dpm t d h, fun dur => ?_⟩
  exact resolve_due_of_due W dpw dpm
    (TaskIn.mk t.id t.name t.start t.assignee t.due dur) d h

/-- Witness for C3: a concrete task with both a due date and a duration. -/
theorem explicit_due_wins_witness :
    resolve_due ({0, 1, 2, 3, 4} : Finset ℕ) 5 21
        (TaskIn.mk "t1" "Task one" 0 none (some 3) (some "2w")) = some 3 ∧
    ∀ dur : Option String,
      resolve_due ({0, 1, 2, 3, 4} : Finset ℕ) 5 21
        (TaskIn.mk "t1" "Task one" 0 none (some 3) dur) = some 3 := by
  exact explicit_due_wins ({0, 1, 2, 3, 4} : Finset ℕ) 5 21
    (TaskIn.mk "t1" "Task one" 0 none (some 3) (some "2w")) 3 rfl

end GenGantt

namespace GenGantt

/-- C4: every validation failure aborts the run with no partial output — an
unknown workday token makes the whole pipeline return nothing; a task with
neither due date nor duration, or with a consulted malformed duration, makes
the row builder return nothing; conversely, when the workday string parses
and every task has an explicit due date or a parseable duration, the
pipeline produces a row list. -/
theorem validation_aborts_run :
    (∀ (proj : ProjectIn) (groups : List GroupIn),
      parse_workdays (proj.workdays.getD WORKDAYS_DEFAULT) = none →
      gantt_rows proj groups = none) ∧
    (∀ (groups : List GroupIn) (W : Finset ℕ) (dpw dpm : ℚ)
        (g : GroupIn) (t : TaskIn), g ∈ groups → t ∈ g.tasks →
      t.due = none → t.duration = none →
      build_rows groups W dpw dpm = none) ∧
    (∀ (groups : List GroupIn) (W : Finset ℕ) (dpw dpm : ℚ)
        (g : GroupIn) (t : TaskIn) (s : String), g ∈ groups → t ∈ g.tasks →
      t.due = none → t.duration = some s →
      duration_to_working_days s dpw dpm = none →
      build_rows groups W dpw dpm = none) ∧
    (∀ (proj : ProjectIn) (groups : List GroupIn) (W : Finset ℕ),
      parse_workdays (proj.workdays.getD WORKDAYS_DEFAULT) = some W →
      (∀ g ∈ groups, ∀ t ∈ g.tasks, t.due ≠ none ∨ ∃ s, t.duration = some s ∧
        (duration_to_working_days s (W.card : ℚ)
          (days_per_month_of (W.card : ℚ))).isSome) →
      ∃ rows, gantt_rows proj groups = some rows) := by
  refine ⟨?_, ?_, ?_, ?_⟩
  · intro proj groups h
    simp [gantt_rows, h]
  · intro groups W dpw dpm g t hg ht h1 h2
    exact build_rows_go_none_of_mem W dpw dpm groups 0 g t hg ht
      (resolve_due_none_of_missing W dpw dpm t h1 h2)
  · intro groups W dpw dpm g t s hg ht h1 h2 h3
    exact build_rows_go_none_of_mem W dpw dpm groups 0 g t hg ht
      (resolve_due_none_of_bad_duration W dpw dpm t s h1 h2 h3)
  · intro proj groups W hp hall
    obtain ⟨-, w, hwW, hw7⟩ := parse_workdays_sound _ W hp
    have hsome : (build_rows_go W ((W.card : ℚ))
        (days_per_month_of (W.card : ℚ)) 0 groups).isSome := by
      apply build_rows_go_isSome
      intro g hg t ht
      exact resolve_due_isSome W _ _ t w hwW hw7 (hall g hg t ht)
    obtain ⟨rows, hrows⟩ := Option.isSome_iff_exists.mp hsome
    refine ⟨rows, ?_⟩
    rw [gantt_rows, hp]
    exact hrows

/-- Witness for C4: bad workday token, missing due/duration, bad duration,
and a well-formed input, all at concrete values. -/
theorem validation_aborts_run_witness :
    gantt_rows (ProjectIn.mk "P" none none (some "M,X")) [] = none ∧
    build_rows [GroupIn.mk "G" [TaskIn.mk "t1" "T" 0 none none none]]
      ({0} : Finset ℕ) 1 4 = none ∧
    build_rows [GroupIn.mk "G" [TaskIn.mk "t1" "T" 0 none none (some "oops")]]
      ({0} : Finset ℕ) 1 4 = none ∧
    ∃ rows, gantt_rows (ProjectIn.mk "P" none none none)
      [GroupIn.mk "G" [TaskIn.mk "t1" "T" 0 none (some 3) none]] = some rows := by
  refine ⟨?_, ?_, ?_, ?_⟩
  · exact validation_aborts_run.1 (ProjectIn.mk "P" none none (some "M,X")) []
      (by decide)
  · exact validation_aborts_run.2.1 _ ({0} : Finset ℕ) 1 4
      (GroupIn.mk "G" [TaskIn.mk "t1" "T" 0 none none none])
      (TaskIn.mk "t1" "T" 0 none none none) (by simp) (by simp) rfl rfl
  · exact validation_aborts_run.2.2.1 _ ({0} : Finset ℕ) 1 4
      (GroupIn.mk "G" [TaskIn.mk "t1" "T" 0 none none (some "oops")])
      (TaskIn.mk "t1" "T" 0 none none (some "oops")) "oops"
      (by simp) (by simp) rfl rfl (by decide)
  · apply validation_aborts_run.2.2.2 (ProjectIn.mk "P" none none none)
      [GroupIn.mk "G" [TaskIn.mk "t1" "T" 0 none (some 3) none]]
      ({0, 1, 2, 3, 4} : Finset ℕ) (by decide)
    intro g hg t ht
    simp only [List.mem_singleton] at hg
    subst hg
    simp only [GroupIn.mk] at ht
    simp only [List.mem_singleton] at ht
    subst ht
    left
    simp

/-- C5: the row list produced by the schedule builder is exactly, for each
group in declaration order, one group-header row followed by one task row
per task in declaration order — its skeleton equals the flattened input
skeleton, so no rows are added, dropped, or reordered. -/
theorem rows_mirror_declaration_order :
    ∀ (groups : List GroupIn) (W : Finset ℕ) (dpw dpm : ℚ) (rows : List Row),
      build_rows groups W dpw dpm = some rows →
      rows.map rowSkel = (groups.map groupSkel).flatten := by
  intro groups W dpw dpm rows h
  exact build_rows_go_skel W dpw dpm groups 0 rows h

/-- Witness for C5: a two-group input evaluated concretely. -/
theorem rows_mirror_declaration_order_witness :
    List.map rowSkel
        [Row.group "G1" "#4e79a7",
         Row.task "t1" "Task one" "" 0 3 "#4e79a7" "G1",
         Row.group "G2" "#f28e2b",
         Row.task "t2" "Task two" "Bob" 1 4 "#f28e2b" "G2"] =
      (List.map groupSkel
        [GroupIn.mk "G1" [TaskIn.mk "t1" "Task one" 0 none (some 3) none],
         GroupIn.mk "G2" [TaskIn.mk "t2" "Task two" 1 (some "Bob") (some 4) none]]).flatten := by
  apply rows_mirror_declaration_order
    [GroupIn.mk "G1" [TaskIn.mk "t1" "Task one" 0 none (some 3) none],
     GroupIn.mk "G2" [TaskIn.mk "t2" "Task two" 1 (some "Bob") (some 4) none]]
    ({0, 1, 2, 3, 4} : Finset ℕ) 5 21
  decide

/-- C6: a task is flagged past-due (reduced opacity 0.40 and hatch overlay)
exactly when its due date is strictly before today; a task due exactly today
is not flagged and renders at opacity 0.85. -/
theorem past_due_flag :
    ∀ due today : ℤ,
      ((past_due due today = true) ↔ due < today) ∧
      (past_due due today = true →
        task_alpha due today = 40 / 100 ∧ task_hatched due today = true) ∧
      (past_due due today = false →
        task_alpha due today = 85 / 100 ∧ task_hatched due today = false) ∧
      past_due today today = false := by
  intro due today
  refine ⟨by simp [past_due], ?_, ?_, by simp [past_due]⟩
  · intro h
    exact ⟨by simp [task_alpha, h], by simp [task_hatched, h]⟩
  · intro h
    exact ⟨by simp [task_alpha, h], by simp [task_hatched, h]⟩

/-- Witness for C6: a past-due task and an exactly-on-today task. -/
theorem past_due_flag_witness :
    past_due 3 5 = true ∧ task_alpha 3 5 = 40 / 100 ∧ task_hatched 3 5 = true ∧
    past_due 5 5 = false ∧ task_alpha 5 5 = 85 / 100 ∧
      task_hatched 5 5 = false := by
  have h1 := (past_due_flag 3 5).2.1 (by decide)
  have h2 := (past_due_flag 5 5).2.2.1 (by decide)
  exact ⟨by decide, h1.1, h1.2, by decide, h2.1, h2.2⟩

/-- C7: the workday parser maps every known day abbreviation token
(case-insensitively) to its weekday integer and returns exactly the set of
those integers; it fails exactly when some token is unknown.  On concrete
inputs: "M,T,W,Th,F" parses to {0,1,2,3,4}, "m, sA,SU" parses to {0,5,6},
and "M,X" fails. -/
theorem parse_workdays_spec :
    (∀ (s : String) (W : Finset ℕ), parse_workdays s = some W →
      ∀ d, d ∈ W ↔ ∃ p ∈ splitComma (removeSpaces s.data),
        lookupDay (p.map Char.toLower) = some d) ∧
    (∀ s : String, (∃ p ∈ splitComma (removeSpaces s.data),
      lookupDay (p.map Char.toLower) = none) → parse_workdays s = none) ∧
    (∀ s : String, (∀ p ∈ splitComma (removeSpaces s.data),
      (lookupDay (p.map Char.toLower)).isSome) → (parse_workdays s).isSome) ∧
    parse_workdays "M,T,W,Th,F" = some ({0, 1, 2, 3, 4} : Finset ℕ) ∧
    parse_workdays "m, sA,SU" = some ({0, 5, 6} : Finset ℕ) ∧
    parse_workdays "M,X" = none := by
  refine ⟨?_, ?_, ?_, by decide, by decide, by decide⟩
  · intro s W h d
    exact parse_workdays_tokens_mem _ W h d
  · intro s h
    exact parse_workdays_tokens_none _ h
  · intro s h
    exact parse_workdays_tokens_isSome _ h

/-- Witness for C7: the membership characterisation applied to the default
workday string. -/
theorem parse_workdays_spec_witness :
    (4 ∈ ({0, 1, 2, 3, 4} : Finset ℕ)) ↔
      ∃ p ∈ splitComma (removeSpaces "M,T,W,Th,F".data),
        lookupDay (p.map Char.toLower) = some 4 := by
  exact parse_workdays_spec.1 "M,T,W,Th,F" ({0, 1, 2, 3, 4} : Finset ℕ)
    (by decide) 4

end GenGantt

namespace GenGantt

/-- C8: for a chart with at least one task row, the left axis bound is the
explicit project start when present, otherwise five days before the
earliest task start; the right axis bound is the latest due date plus the
fixed 28-day label margin. -/
theorem axis_bounds :
    (∀ (d : ℤ) (rows : List Row), chart_x_min (some d) rows = some d) ∧
    (∀ rows : List Row, (∃ r ∈ rows, isTaskRow r = true) →
      ∃ m, chart_x_min none rows = some m ∧ (m + 5) ∈ taskStarts rows ∧
        ∀ s ∈ taskStarts rows, m + 5 ≤ s) ∧
    (∀ rows : List Row, (∃ r ∈ rows, isTaskRow r = true) →
      ∃ M, chart_x_max rows = some M ∧ (M - 28) ∈ taskDues rows ∧
        ∀ d ∈ taskDues rows, d ≤ M - 28) := by
  refine ⟨fun d rows => rfl, ?_, ?_⟩
  · rintro rows ⟨r, hr, htr⟩
    have hne := taskStarts_ne_nil rows r hr htr
    obtain ⟨m0, hm⟩ := Option.isSome_iff_exists.mp (listMin_isSome _ hne)
    obtain ⟨hmem, hle⟩ := listMin_spec _ m0 hm
    refine ⟨m0 - 5, by simp [chart_x_min, hm], by simpa using hmem, ?_⟩
    intro s hs
    have := hle s hs
    omega
  · rintro rows ⟨r, hr, htr⟩
    have hne := taskDues_ne_nil rows r hr htr
    obtain ⟨M0, hM⟩ := Option.isSome_iff_exists.mp (listMax_isSome _ hne)
    obtain ⟨hmem, hle⟩ := listMax_spec _ M0 hM
    refine ⟨M0 + 28, by simp [chart_x_max, hM], by simpa using hmem, ?_⟩
    intro d hd
    have := hle d hd
    omega

/-- Witness for C8: a two-task chart evaluated concretely. -/
theorem axis_bounds_witness :
    chart_x_min (some 7) [] = some 7 ∧
    (∃ m, chart_x_min none
        [Row.task "a" "A" "" 2 9 "" "G", Row.task "b" "B" "" 4 11 "" "G"] = some m ∧
      (m + 5) ∈ taskStarts
        [Row.task "a" "A" "" 2 9 "" "G", Row.task "b" "B" "" 4 11 "" "G"] ∧
      ∀ s ∈ taskStarts
        [Row.task "a" "A" "" 2 9 "" "G", Row.task "b" "B" "" 4 11 "" "G"],
        m + 5 ≤ s) ∧
    (∃ M, chart_x_max
        [Row.task "a" "A" "" 2 9 "" "G", Row.task "b" "B" "" 4 11 "" "G"] = some M ∧
      (M - 28) ∈ taskDues
        [Row.task "a" "A" "" 2 9 "" "G", Row.task "b" "B" "" 4 11 "" "G"] ∧
      ∀ d ∈ taskDues
        [Row.task "a" "A" "" 2 9 "" "G", Row.task "b" "B" "" 4 11 "" "G"],
        d ≤ M - 28) := by
  refine ⟨axis_bounds.1 7 [], ?_, ?_⟩
  · exact axis_bounds.2.1
      [Row.task "a" "A" "" 2 9 "" "G", Row.task "b" "B" "" 4 11 "" "G"]
      ⟨Row.task "a" "A" "" 2 9 "" "G", by decide⟩
  · exact axis_bounds.2.2
      [Row.task "a" "A" "" 2 9 "" "G", Row.task "b" "B" "" 4 11 "" "G"]
      ⟨Row.task "a" "A" "" 2 9 "" "G", by decide⟩

/-- C9: the advance loop terminates for every start date and every count as
soon as the workday set contains a real weekday; every successful
`parse_workdays` result is a non-empty set of real weekdays (and the empty
string fails), so the advance loop never diverges in the pipeline. -/
theorem advance_terminates :
    (∀ (start : ℤ) (n : ℚ) (W : Finset ℕ) (w : ℕ), w ∈ W → w < 7 →
      ∃ r, add_working_days start n W = some r) ∧
    (∀ (s : String) (W : Finset ℕ), parse_workdays s = some W →
      W.Nonempty ∧ ∃ w ∈ W, w < 7) ∧
    parse_workdays "" = none := by
  refine ⟨?_, parse_workdays_sound, by decide⟩
  intro start n W w hw hw7
  exact Option.isSome_iff_exists.mp (add_working_days_isSome start n W w hw hw7)

/-- Witness for C9: termination on a one-day workweek, and a successful
parse yielding a non-empty set. -/
theorem advance_terminates_witness :
    (∃ r, add_working_days 0 5 ({3} : Finset ℕ) = some r) ∧
    ((({4} : Finset ℕ).Nonempty) ∧ ∃ w ∈ ({4} : Finset ℕ), w < 7) := by
  constructor
  · exact advance_terminates.1 0 5 ({3} : Finset ℕ) 3 (by decide) (by decide)
  · exact advance_terminates.2.1 "F" ({4} : Finset ℕ) (by decide)

/-- C10: for a workday set containing a real weekday and a count whose
ceiling is at least 1, the advanced date is strictly after the start and its
weekday belongs to the workday set — a duration-computed due date always
lands on a configured workday. -/
theorem advance_lands_on_workday :
    ∀ (start : ℤ) (n : ℚ) (W : Finset ℕ) (w : ℕ), w ∈ W → w < 7 → 1 ≤ ⌈n⌉ →
      ∃ r, add_working_days start n W = some r ∧ start < r ∧ weekday r ∈ W := by
  intro start n W w hw hw7 hn
  obtain ⟨r, h1, -, h3, h4⟩ := add_working_days_pos start n W w hw hw7 hn
  exact ⟨r, h1, h4, h3⟩

/-- Witness for C10: advancing a Saturday-only calendar by one day. -/
theorem advance_lands_on_workday_witness :
    ∃ r, add_working_days 0 1 ({5} : Finset ℕ) = some r ∧ (0 : ℤ) < r ∧
      weekday r ∈ ({5} : Finset ℕ) := by
  exact advance_lands_on_workday 0 1 ({5} : Finset ℕ) 5 (by decide) (by decide)
    (by simp)

end GenGantt
